import Mathlib

/-!
Verification of the sampling-and-storage core of the system-monitoring
dashboard.

The definitions below are a shallow embedding of the C++ sources:

* `RingBuffer`, `MemoryStore`     — include/store/memory_store.h, store/memory_store.cpp
* `metric_with_labels`            — metrics/metric_key.h
* `get_cpu_total_percent` etc.    — collector/cpu_linux.cpp
* `get_net_stats`                 — collector/net.cpp
* `get_disk_io`                   — collector/disk.cpp
* `procmon` process differ        — collector/proc.cpp

C++ `double` is modelled as `ℚ`, machine integers (`uint64_t`, `int64_t`,
`std::size_t`) as `Nat`/`Int` (the code only subtracts unsigned counters
under an explicit `b >= a` guard, so no wrap-around occurs; this is proved
below rather than assumed).  Hash maps (`std::unordered_map`) are modelled
as association lists; the mutexes of the store are dropped because every
property proved here is about the sequential behaviour of the operations.
-/

/-- One scalar sample, `struct Sample` of memory_store.h. -/
structure Sample where
  ts_ms : Int
  value : ℚ
deriving DecidableEq, Repr, Inhabited

/-- One vector sample, `struct SampleVec` of memory_store.h. -/
structure SampleVec where
  ts_ms : Int
  vals : List ℚ
deriving DecidableEq, Repr, Inhabited

/-- `RingBuffer<T>` of memory_store.h: a fixed vector `buffer_` of length
`cap_` plus `head_` (next write), `tail_` (oldest element) and `size_`. -/
structure RingBuffer (α : Type) where
  buffer : List α
  cap : Nat
  head : Nat
  tail : Nat
  size : Nat
deriving DecidableEq, Repr

/-- `RingBuffer(cap)`: `buffer_(cap)` value-initialises `cap` elements
(`T{}`), all indices start at zero. -/
def RingBuffer.mkEmpty (α : Type) [Inhabited α] (cap : Nat) : RingBuffer α :=
  ⟨List.replicate cap default, cap, 0, 0, 0⟩

/-- `RingBuffer::append`: write at `head_`, advance `head_`; grow `size_`
while not full, otherwise advance `tail_` (drop the oldest element). -/
def RingBuffer.append (rb : RingBuffer α) (x : α) : RingBuffer α :=
  let buf := rb.buffer.set rb.head x
  let h := (rb.head + 1) % rb.cap
  if rb.size < rb.cap then
    ⟨buf, rb.cap, h, rb.tail, rb.size + 1⟩
  else
    ⟨buf, rb.cap, h, (rb.tail + 1) % rb.cap, rb.size⟩

/-- `RingBuffer::snapshot`: copy the `size_` elements starting at `tail_`
in physical ring order (`(tail_ + i) % cap_`). -/
def RingBuffer.snapshot [Inhabited α] (rb : RingBuffer α) : List α :=
  (List.range rb.size).map (fun i => rb.buffer.getD ((rb.tail + i) % rb.cap) default)

/-- `RingBuffer<Sample>::range`: scan the `size_` elements from `tail_` and
keep those whose `ts_ms` lies in the inclusive window `[from_ms, to_ms]`. -/
def RingBuffer.range (rb : RingBuffer Sample) (from_ms to_ms : Int) : List Sample :=
  rb.snapshot.filter (fun s => from_ms ≤ s.ts_ms ∧ s.ts_ms ≤ to_ms)

/-- `RingBuffer<SampleVec>::range`, same template instantiated at `SampleVec`. -/
def RingBuffer.rangeVec (rb : RingBuffer SampleVec) (from_ms to_ms : Int) : List SampleVec :=
  rb.snapshot.filter (fun s => from_ms ≤ s.ts_ms ∧ s.ts_ms ≤ to_ms)

/-- Well-formedness of the ring-buffer representation: positive capacity
(`MemoryStore` always constructs rings with capacity ≥ 1), backing vector of
length `cap_`, `size_ ≤ cap_`, `tail_` in range and `head_` sitting `size_`
slots after `tail_` (mod `cap_`).  `mkEmpty` establishes it and `append`
preserves it. -/
def RingBuffer.WF [Inhabited α] (rb : RingBuffer α) : Prop :=
  0 < rb.cap ∧ rb.buffer.length = rb.cap ∧ rb.size ≤ rb.cap ∧
    rb.tail < rb.cap ∧ rb.head = (rb.tail + rb.size) % rb.cap

/-- Appending every element of `xs` in order (the store's usage pattern). -/
def RingBuffer.appendAll (rb : RingBuffer α) (xs : List α) : RingBuffer α :=
  xs.foldl RingBuffer.append rb

theorem getD_set_ne {α : Type} (l : List α) (m n : Nat) (x d : α) (h : m ≠ n) :
    (l.set m x).getD n d = l.getD n d := by
  induction l generalizing m n with
  | nil => simp
  | cons a l ih =>
    cases m with
    | zero => cases n with
      | zero => exact absurd rfl h
      | succ n => simp [List.getD]
    | succ m => cases n with
      | zero => simp [List.getD]
      | succ n =>
        simp only [List.set, List.getD_cons_succ]
        exact ih m n (by omega)

theorem getD_set_self {α : Type} (l : List α) (m : Nat) (x d : α) (h : m < l.length) :
    (l.set m x).getD m d = x := by
  induction l generalizing m with
  | nil => simp at h
  | cons a l ih =>
    cases m with
    | zero => simp [List.getD]
    | succ m =>
      simp only [List.set, List.getD_cons_succ]
      exact ih m (by simpa using h)

theorem RingBuffer.wf_mkEmpty (α : Type) [Inhabited α] (cap : Nat) (h : 0 < cap) :
    (RingBuffer.mkEmpty α cap).WF := by
  refine ⟨h, ?_, ?_, h, ?_⟩ <;> simp [RingBuffer.mkEmpty]

theorem RingBuffer.append_eq_of_lt (rb : RingBuffer α) (x : α) (hlt : rb.size < rb.cap) :
    rb.append x =
      ⟨rb.buffer.set rb.head x, rb.cap, (rb.head + 1) % rb.cap, rb.tail, rb.size + 1⟩ := by
  simp [RingBuffer.append, hlt]

theorem RingBuffer.append_eq_of_full (rb : RingBuffer α) (x : α) (hlt : ¬ rb.size < rb.cap) :
    rb.append x =
      ⟨rb.buffer.set rb.head x, rb.cap, (rb.head + 1) % rb.cap,
        (rb.tail + 1) % rb.cap, rb.size⟩ := by
  simp [RingBuffer.append, hlt]

theorem RingBuffer.wf_append [Inhabited α] (rb : RingBuffer α) (x : α) (h : rb.WF) :
    (rb.append x).WF := by
  obtain ⟨hcap, hlen, hsize, htail, hhead⟩ := h
  by_cases hlt : rb.size < rb.cap
  · rw [RingBuffer.append_eq_of_lt rb x hlt]
    refine ⟨hcap, by simpa using hlen, by simpa using hlt, htail, ?_⟩
    show (rb.head + 1) % rb.cap = (rb.tail + (rb.size + 1)) % rb.cap
    rw [hhead, Nat.mod_add_mod, Nat.add_assoc]
  · rw [RingBuffer.append_eq_of_full rb x hlt]
    refine ⟨hcap, by simpa using hlen, hsize, Nat.mod_lt _ hcap, ?_⟩
    show (rb.head + 1) % rb.cap = ((rb.tail + 1) % rb.cap + rb.size) % rb.cap
    rw [hhead, Nat.mod_add_mod, Nat.mod_add_mod]
    congr 1
    omega

theorem getD_append_left {α : Type} (l₁ l₂ : List α) (i : Nat) (d : α) (h : i < l₁.length) :
    (l₁ ++ l₂).getD i d = l₁.getD i d := by
  induction l₁ generalizing i with
  | nil => simp at h
  | cons a l ih =>
    cases i with
    | zero => simp [List.getD]
    | succ i => simpa [List.getD] using ih i (by simpa using h)

theorem getD_append_singleton {α : Type} (l : List α) (x d : α) :
    (l ++ [x]).getD l.length d = x := by
  induction l with
  | nil => simp [List.getD]
  | cons a l ih =>
    simp only [List.cons_append, List.length_cons, List.getD_cons_succ]
    exact ih

theorem getD_drop {α : Type} (l : List α) (n i : Nat) (d : α) :
    (l.drop n).getD i d = l.getD (n + i) d := by
  induction n generalizing l with
  | zero => simp
  | succ n ih =>
    cases l with
    | nil => simp [List.getD]
    | cons a l =>
      have h1 : n + 1 + i = (n + i) + 1 := by omega
      simp only [List.drop_succ_cons, h1, List.getD_cons_succ]
      exact ih l

theorem list_ext_getD {α : Type} (d : α) (l₁ l₂ : List α) (hlen : l₁.length = l₂.length)
    (h : ∀ i, i < l₁.length → l₁.getD i d = l₂.getD i d) : l₁ = l₂ := by
  apply List.ext_getElem hlen
  intro i h1 h2
  have hi := h i h1
  rwa [List.getD_eq_getElem l₁ d h1, List.getD_eq_getElem l₂ d h2] at hi

theorem getD_map_range {α : Type} (n i : Nat) (f : Nat → α) (d : α) (h : i < n) :
    ((List.range n).map f).getD i d = f i := by
  have h2 : i < ((List.range n).map f).length := by simpa using h
  rw [List.getD_eq_getElem _ _ h2]
  simp

/-- Writes into distinct ring slots correspond to distinct logical offsets:
offsets below the capacity are injective modulo the capacity. -/
theorem ring_index_inj (cap tail i j : Nat) (hi : i < cap) (hj : j < cap)
    (h : (tail + i) % cap = (tail + j) % cap) : i = j := by
  have h1 : i ≡ j [MOD cap] :=
    Nat.ModEq.add_left_cancel (Nat.ModEq.refl tail) h
  have h2 : i % cap = j % cap := h1
  rwa [Nat.mod_eq_of_lt hi, Nat.mod_eq_of_lt hj] at h2

theorem RingBuffer.snapshot_length [Inhabited α] (rb : RingBuffer α) :
    rb.snapshot.length = rb.size := by
  simp [RingBuffer.snapshot]


theorem getD_append_singleton_of_eq {α : Type} (l : List α) (x d : α) (i : Nat)
    (h : i = l.length) : (l ++ [x]).getD i d = x := by
  subst h
  exact getD_append_singleton l x d

/-- One `append` acts on the logical contents of a well-formed ring exactly
like the spec's FIFO model: push at the back, and additionally drop the
oldest element when the ring was already full. -/
theorem RingBuffer.snapshot_append [Inhabited α] (rb : RingBuffer α) (x : α) (h : rb.WF) :
    (rb.append x).snapshot =
      if rb.size < rb.cap then rb.snapshot ++ [x] else rb.snapshot.drop 1 ++ [x] := by
  obtain ⟨hcap, hlen, hsize, htail, hhead⟩ := h
  by_cases hlt : rb.size < rb.cap
  · rw [RingBuffer.append_eq_of_lt rb x hlt, if_pos hlt]
    simp only [RingBuffer.snapshot]
    apply list_ext_getD default
    · simp
    · intro i hi
      simp only [List.length_map, List.length_range] at hi
      rw [getD_map_range _ _ _ _ hi]
      by_cases hieq : i = rb.size
      · subst hieq
        rw [← hhead, getD_set_self]
        · rw [getD_append_singleton_of_eq _ _ _ _ (by simp)]
        · rw [hlen, hhead]
          exact Nat.mod_lt _ hcap
      · have hi2 : i < rb.size := by omega
        have hne : rb.head ≠ (rb.tail + i) % rb.cap := by
          rw [hhead]
          intro hcontra
          exact hieq (ring_index_inj rb.cap rb.tail i rb.size (by omega) hlt hcontra.symm)
        rw [getD_set_ne _ _ _ _ _ hne]
        rw [getD_append_left _ _ _ _ (by simpa using hi2)]
        rw [getD_map_range _ _ _ _ hi2]
  · rw [RingBuffer.append_eq_of_full rb x hlt, if_neg hlt]
    have hfull : rb.size = rb.cap := by omega
    have hheadtail : rb.head = rb.tail := by
      rw [hhead, hfull, Nat.add_mod_right, Nat.mod_eq_of_lt htail]
    simp only [RingBuffer.snapshot]
    apply list_ext_getD default
    · simp
      omega
    · intro i hi
      simp only [List.length_map, List.length_range] at hi
      rw [getD_map_range _ _ _ _ hi]
      have hidx : ((rb.tail + 1) % rb.cap + i) % rb.cap = (rb.tail + (1 + i)) % rb.cap := by
        rw [Nat.mod_add_mod]
        congr 1
        omega
      rw [hidx]
      by_cases hieq : i = rb.size - 1
      · subst hieq
        have h1 : 1 + (rb.size - 1) = rb.size := by omega
        rw [h1, ← hhead, getD_set_self]
        · rw [getD_append_singleton_of_eq _ _ _ _ (by simp)]
        · rw [hlen, hhead]
          exact Nat.mod_lt _ hcap
      · have hi2 : i < rb.size - 1 := by omega
        have hne : rb.head ≠ (rb.tail + (1 + i)) % rb.cap := by
          rw [hheadtail]
          intro hcontra
          have h0 : (rb.tail + 0) % rb.cap = (rb.tail + (1 + i)) % rb.cap := by
            rw [Nat.add_zero, Nat.mod_eq_of_lt htail]
            exact hcontra
          have := ring_index_inj rb.cap rb.tail 0 (1 + i) hcap (by omega) h0
          omega
        rw [getD_set_ne _ _ _ _ _ hne]
        rw [getD_append_left _ _ _ _ (by simp; omega)]
        rw [getD_drop]
        rw [getD_map_range _ _ _ _ (by omega : 1 + i < rb.size)]

theorem RingBuffer.cap_append (rb : RingBuffer α) (x : α) : (rb.append x).cap = rb.cap := by
  unfold RingBuffer.append
  split <;> rfl

theorem RingBuffer.cap_appendAll (rb : RingBuffer α) (xs : List α) :
    (rb.appendAll xs).cap = rb.cap := by
  induction xs generalizing rb with
  | nil => rfl
  | cons x xs ih =>
    show ((rb.append x).appendAll xs).cap = rb.cap
    rw [ih, RingBuffer.cap_append]

theorem RingBuffer.appendAll_append (rb : RingBuffer α) (ys : List α) (x : α) :
    rb.appendAll (ys ++ [x]) = (rb.appendAll ys).append x := by
  unfold RingBuffer.appendAll
  rw [List.foldl_append]
  rfl

/-- Appending the list `xs` into an initially empty ring of capacity `C ≥ 1`
yields a well-formed ring whose logical contents are the last
`min (length xs) C` elements of `xs`, in append order. -/
theorem RingBuffer.appendAll_spec (α : Type) [Inhabited α] (C : Nat) (hC : 0 < C)
    (xs : List α) :
    ((RingBuffer.mkEmpty α C).appendAll xs).WF ∧
      ((RingBuffer.mkEmpty α C).appendAll xs).snapshot = xs.drop (xs.length - C) := by
  induction xs using List.reverseRecOn with
  | nil =>
    refine ⟨RingBuffer.wf_mkEmpty α C hC, ?_⟩
    simp [RingBuffer.appendAll, RingBuffer.snapshot, RingBuffer.mkEmpty]
  | append_singleton ys x ih =>
    obtain ⟨hwf, hsnap⟩ := ih
    rw [RingBuffer.appendAll_append]
    refine ⟨RingBuffer.wf_append _ x hwf, ?_⟩
    rw [RingBuffer.snapshot_append _ x hwf]
    have hcap : ((RingBuffer.mkEmpty α C).appendAll ys).cap = C := by
      rw [RingBuffer.cap_appendAll]
      rfl
    have hsz : ((RingBuffer.mkEmpty α C).appendAll ys).size = ys.length - (ys.length - C) := by
      rw [← RingBuffer.snapshot_length, hsnap, List.length_drop]
    by_cases hys : ys.length < C
    · have hlt : ((RingBuffer.mkEmpty α C).appendAll ys).size
          < ((RingBuffer.mkEmpty α C).appendAll ys).cap := by
        rw [hsz, hcap]
        omega
      rw [if_pos hlt, hsnap]
      have h0 : ys.length - C = 0 := by omega
      have h1 : (ys ++ [x]).length - C = 0 := by
        simp
        omega
      rw [h0, h1, List.drop_zero, List.drop_zero]
    · have hge : ¬ ((RingBuffer.mkEmpty α C).appendAll ys).size
          < ((RingBuffer.mkEmpty α C).appendAll ys).cap := by
        rw [hsz, hcap]
        omega
      rw [if_neg hge, hsnap, List.drop_drop]
      have h2 : (ys ++ [x]).length - C = (1 + (ys.length - C)) := by
        simp
        omega
      rw [h2, List.drop_append_of_le_length (by omega)]
      congr 2
      omega

/-- Claim C5: for every ring buffer of capacity `C ≥ 1` and every sequence of
`N > C` appends, the buffer afterwards contains exactly the last `C` appended
items in append order (oldest evicted first), and at every point during the
sequence `size() ≤ C`. -/
theorem claim_C5_ring_eviction (α : Type) [Inhabited α] (C : Nat) (hC : 1 ≤ C)
    (xs : List α) (hN : C < xs.length) :
    ((RingBuffer.mkEmpty α C).appendAll xs).snapshot = xs.drop (xs.length - C) ∧
      (xs.drop (xs.length - C)).length = C ∧
      ∀ n : Nat, ((RingBuffer.mkEmpty α C).appendAll (xs.take n)).size ≤ C := by
  obtain ⟨hwf, hsnap⟩ := RingBuffer.appendAll_spec α C hC xs
  refine ⟨hsnap, ?_, ?_⟩
  · rw [List.length_drop]
    omega
  · intro n
    obtain ⟨hwfn, -⟩ := RingBuffer.appendAll_spec α C hC (xs.take n)
    have hcap : ((RingBuffer.mkEmpty α C).appendAll (xs.take n)).cap = C := by
      rw [RingBuffer.cap_appendAll]
      rfl
    have hle := hwfn.2.2.1
    rw [hcap] at hle
    exact hle

/-- Witness for C5: capacity 2, three appended samples; the ring retains the
last two in order and size stays within 2. -/
theorem claim_C5_ring_eviction_witness :
    ((1 : Nat) ≤ 2 ∧ 2 < [Sample.mk 10 1, Sample.mk 20 2, Sample.mk 30 3].length) ∧
      (((RingBuffer.mkEmpty Sample 2).appendAll
            [Sample.mk 10 1, Sample.mk 20 2, Sample.mk 30 3]).snapshot
          = [Sample.mk 10 1, Sample.mk 20 2, Sample.mk 30 3].drop
              ([Sample.mk 10 1, Sample.mk 20 2, Sample.mk 30 3].length - 2) ∧
        ([Sample.mk 10 1, Sample.mk 20 2, Sample.mk 30 3].drop
              ([Sample.mk 10 1, Sample.mk 20 2, Sample.mk 30 3].length - 2)).length = 2 ∧
        ∀ n : Nat,
          ((RingBuffer.mkEmpty Sample 2).appendAll
              ([Sample.mk 10 1, Sample.mk 20 2, Sample.mk 30 3].take n)).size ≤ 2) :=
  ⟨⟨by norm_num, by norm_num⟩,
    claim_C5_ring_eviction Sample 2 (by norm_num) _ (by norm_num)⟩

/-- Claim C6: for a series appended in non-decreasing timestamp order,
`range(from_ms, to_ms)` returns exactly the retained samples whose timestamp
lies in the closed interval `[from_ms, to_ms]` (both bounds inclusive), in
oldest-to-newest (non-decreasing timestamp) order. -/
theorem claim_C6_range_inclusivity (C : Nat) (hC : 1 ≤ C) (xs : List Sample)
    (hmono : xs.Pairwise (fun a b => a.ts_ms ≤ b.ts_ms)) (from_ms to_ms : Int) :
    ((RingBuffer.mkEmpty Sample C).appendAll xs).range from_ms to_ms
        = (xs.drop (xs.length - C)).filter
            (fun s => from_ms ≤ s.ts_ms ∧ s.ts_ms ≤ to_ms) ∧
      (((RingBuffer.mkEmpty Sample C).appendAll xs).range from_ms to_ms).Pairwise
        (fun a b => a.ts_ms ≤ b.ts_ms) := by
  obtain ⟨hwf, hsnap⟩ := RingBuffer.appendAll_spec Sample C hC xs
  have hr : ((RingBuffer.mkEmpty Sample C).appendAll xs).range from_ms to_ms
      = (xs.drop (xs.length - C)).filter
          (fun s => from_ms ≤ s.ts_ms ∧ s.ts_ms ≤ to_ms) := by
    rw [RingBuffer.range, hsnap]
  refine ⟨hr, ?_⟩
  rw [hr]
  exact hmono.sublist ((List.filter_sublist _).trans (List.drop_sublist _ _))

/-- Witness for C6: samples at timestamps 10, 20, 30 in a capacity-5 ring;
`range(11,29)` keeps only the sample at 20 (and the claim's other two
example windows behave as stated). -/
theorem claim_C6_range_inclusivity_witness :
    ((1 : Nat) ≤ 5 ∧
        ([Sample.mk 10 1, Sample.mk 20 2, Sample.mk 30 3] : List Sample).Pairwise
          (fun a b => a.ts_ms ≤ b.ts_ms)) ∧
      (((RingBuffer.mkEmpty Sample 5).appendAll
              [Sample.mk 10 1, Sample.mk 20 2, Sample.mk 30 3]).range 11 29
          = ([Sample.mk 10 1, Sample.mk 20 2, Sample.mk 30 3].drop
              ([Sample.mk 10 1, Sample.mk 20 2, Sample.mk 30 3].length - 5)).filter
                (fun s => 11 ≤ s.ts_ms ∧ s.ts_ms ≤ 29) ∧
        (((RingBuffer.mkEmpty Sample 5).appendAll
              [Sample.mk 10 1, Sample.mk 20 2, Sample.mk 30 3]).range 11 29).Pairwise
          (fun a b => a.ts_ms ≤ b.ts_ms)) ∧
      ((RingBuffer.mkEmpty Sample 5).appendAll
            [Sample.mk 10 1, Sample.mk 20 2, Sample.mk 30 3]).range 10 30
          = [Sample.mk 10 1, Sample.mk 20 2, Sample.mk 30 3] ∧
      ((RingBuffer.mkEmpty Sample 5).appendAll
            [Sample.mk 10 1, Sample.mk 20 2, Sample.mk 30 3]).range 11 29
          = [Sample.mk 20 2] ∧
      ((RingBuffer.mkEmpty Sample 5).appendAll
            [Sample.mk 10 1, Sample.mk 20 2, Sample.mk 30 3]).range 31 40
          = [] :=
  ⟨⟨by norm_num, by decide⟩,
    claim_C6_range_inclusivity 5 (by norm_num) _ (by decide) 11 29,
    by decide, by decide, by decide⟩

/-- Opaque JSON blob held by the snapshot/metadata cells.  The store never
inspects the blob's internal structure (`nlohmann::json` values pass through
unchanged), so the model treats a blob as an uninterpreted string. -/
abbrev Blob := String

/-- Association-list lookup, modelling `std::unordered_map::find`. -/
def lookupAssoc {β : Type} : List (String × β) → String → Option β
  | [], _ => none
  | (k, v) :: rest, key => if k = key then some v else lookupAssoc rest key

/-- Update-or-insert on an association list, modelling the effect of
`try_emplace` followed by a write through the returned reference (other
entries are untouched). -/
def storePut {β : Type} : List (String × β) → String → β → List (String × β)
  | [], k, v => [(k, v)]
  | (k0, v0) :: rest, k, v =>
      if k0 = k then (k, v) :: rest else (k0, v0) :: storePut rest k v

/-- `MemoryStore` of memory_store.h: scalar series, vector series, snapshot
blobs and metadata blobs, each keyed by a selector / short string.  The four
`std::unordered_map`s are modelled as association lists; the per-series
`std::mutex` is dropped (sequential semantics). -/
structure MemoryStore where
  per_metric_capacity : Nat
  sample_period_s : Nat
  series : List (String × RingBuffer Sample)
  vec_series : List (String × RingBuffer SampleVec)
  snapshots : List (String × Blob)
  metadata : List (String × Blob)

/-- `MemoryStore::MemoryStore(keep_seconds, sample_period_s)`:
capacity = `max(1, keep_seconds / max(1, sample_period_s))`. -/
def MemoryStore.create (keep_seconds sample_period_s : Nat) : MemoryStore :=
  ⟨max 1 (keep_seconds / max 1 sample_period_s), max 1 sample_period_s, [], [], [], []⟩

/-- `MemoryStore::append`: find-or-create the scalar series for `metric`
(capacity `per_metric_capacity_`), then append `Sample{ts_ms, value}`. -/
def MemoryStore.append (st : MemoryStore) (metric : String) (ts_ms : Int) (value : ℚ) :
    MemoryStore :=
  let s := (lookupAssoc st.series metric).getD
    (RingBuffer.mkEmpty Sample st.per_metric_capacity)
  ⟨st.per_metric_capacity, st.sample_period_s,
    storePut st.series metric (s.append ⟨ts_ms, value⟩),
    st.vec_series, st.snapshots, st.metadata⟩

/-- `MemoryStore::append_vector`: same as `append`, in the independent vector
namespace. -/
def MemoryStore.append_vector (st : MemoryStore) (metric : String) (ts_ms : Int)
    (vals : List ℚ) : MemoryStore :=
  let s := (lookupAssoc st.vec_series metric).getD
    (RingBuffer.mkEmpty SampleVec st.per_metric_capacity)
  ⟨st.per_metric_capacity, st.sample_period_s, st.series,
    storePut st.vec_series metric (s.append ⟨ts_ms, vals⟩),
    st.snapshots, st.metadata⟩

/-- `MemoryStore::query`: empty result for an unknown selector, otherwise the
inclusive time-range extraction from the series' ring. -/
def MemoryStore.query (st : MemoryStore) (metric : String) (from_ms to_ms : Int) :
    List Sample :=
  match lookupAssoc st.series metric with
  | none => []
  | some rb => rb.range from_ms to_ms

/-- `MemoryStore::query_vector`. -/
def MemoryStore.query_vector (st : MemoryStore) (metric : String) (from_ms to_ms : Int) :
    List SampleVec :=
  match lookupAssoc st.vec_series metric with
  | none => []
  | some rb => rb.rangeVec from_ms to_ms

/-- `MemoryStore::put_snapshot`: last-write-wins single cell. -/
def MemoryStore.put_snapshot (st : MemoryStore) (key : String) (j : Blob) : MemoryStore :=
  ⟨st.per_metric_capacity, st.sample_period_s, st.series, st.vec_series,
    storePut st.snapshots key j, st.metadata⟩

/-- `MemoryStore::put_metadata`. -/
def MemoryStore.put_metadata (st : MemoryStore) (key : String) (j : Blob) : MemoryStore :=
  ⟨st.per_metric_capacity, st.sample_period_s, st.series, st.vec_series,
    st.snapshots, storePut st.metadata key j⟩

/-- `metric_with_labels` of metrics/metric_key.h: render
`name{k1=v1,k2=v2,...}` with the labels in exactly the order given by the
caller (no sorting, no canonicalisation). -/
def metric_with_labels (name : String) (kvs : List (String × String)) : String :=
  let step := fun (acc : String × Bool) (kv : String × String) =>
    ((if acc.2 then acc.1 else acc.1 ++ ",") ++ kv.1 ++ "=" ++ kv.2, false)
  (kvs.foldl step (name ++ "\x7b", true)).1 ++ "\x7d"

theorem lookupAssoc_storePut_self {β : Type} (l : List (String × β)) (k : String) (v : β) :
    lookupAssoc (storePut l k v) k = some v := by
  induction l with
  | nil => simp [storePut, lookupAssoc]
  | cons a l ih =>
    by_cases h : a.1 = k
    · simp [storePut, h, lookupAssoc]
    · simp [storePut, h, lookupAssoc, ih]

theorem lookupAssoc_storePut_ne {β : Type} (l : List (String × β)) (k k0 : String) (v : β)
    (h : k0 ≠ k) : lookupAssoc (storePut l k v) k0 = lookupAssoc l k0 := by
  have hk : ¬ k = k0 := fun e => h e.symm
  induction l with
  | nil => simp [storePut, lookupAssoc, hk]
  | cons a l ih =>
    obtain ⟨k1, v1⟩ := a
    by_cases ha : k1 = k
    · subst ha
      simp [storePut, lookupAssoc, hk]
    · simp [storePut, ha, lookupAssoc, ih]

/-- Claim C1 counterexample: the two renderings of the same label set in
different orders are different selector strings, and after one append under
each rendering the two samples live in two distinct series — a query under
the first rendering sees only its own sample, not both.  Selector resolution
is therefore NOT label-order independent. -/
theorem claim_C1_counterexample :
    metric_with_labels "metric" [("a", "1"), ("b", "2")]
        ≠ metric_with_labels "metric" [("b", "2"), ("a", "1")] ∧
      (((MemoryStore.create 4 1).append
            (metric_with_labels "metric" [("a", "1"), ("b", "2")]) 100 1).append
          (metric_with_labels "metric" [("b", "2"), ("a", "1")]) 200 2).query
          (metric_with_labels "metric" [("a", "1"), ("b", "2")]) 0 1000
        = [Sample.mk 100 1] := by
  constructor
  · decide
  · decide

/-- Claim C1 (amended): selector resolution is by exact string equality of
the rendered selector.  Two appends that render their labels in the same
order resolve to the same series, and a query under that rendering returns
both samples; labels given in a different order produce a different selector
string and hence a distinct series (see the counterexample). -/
theorem claim_C1_amended_same_rendering (name : String) (kvs : List (String × String))
    (keep period : Nat) (ts1 ts2 : Int) (v1 v2 : ℚ) (from_ms to_ms : Int)
    (hcap : 2 ≤ max 1 (keep / max 1 period))
    (h1 : from_ms ≤ ts1 ∧ ts1 ≤ to_ms) (h2 : from_ms ≤ ts2 ∧ ts2 ≤ to_ms) :
    (((MemoryStore.create keep period).append (metric_with_labels name kvs) ts1 v1).append
          (metric_with_labels name kvs) ts2 v2).query
        (metric_with_labels name kvs) from_ms to_ms
      = [Sample.mk ts1 v1, Sample.mk ts2 v2] := by
  have hq : (((MemoryStore.create keep period).append
          (metric_with_labels name kvs) ts1 v1).append
          (metric_with_labels name kvs) ts2 v2).query
        (metric_with_labels name kvs) from_ms to_ms
      = (((RingBuffer.mkEmpty Sample (max 1 (keep / max 1 period))).append
            ⟨ts1, v1⟩).append ⟨ts2, v2⟩).range from_ms to_ms := by
    simp [MemoryStore.create, MemoryStore.append, MemoryStore.query, lookupAssoc, storePut]
  rw [hq]
  have hall : ((RingBuffer.mkEmpty Sample (max 1 (keep / max 1 period))).append
        ⟨ts1, v1⟩).append ⟨ts2, v2⟩
      = (RingBuffer.mkEmpty Sample (max 1 (keep / max 1 period))).appendAll
          [⟨ts1, v1⟩, ⟨ts2, v2⟩] := rfl
  obtain ⟨-, hsnap⟩ := RingBuffer.appendAll_spec Sample (max 1 (keep / max 1 period))
    (by omega) [⟨ts1, v1⟩, ⟨ts2, v2⟩]
  rw [hall, RingBuffer.range, hsnap]
  have hdrop : ([⟨ts1, v1⟩, ⟨ts2, v2⟩] : List Sample).length
      - max 1 (keep / max 1 period) = 0 := by
    simp
    omega
  rw [hdrop, List.drop_zero]
  simp [h1.1, h1.2, h2.1, h2.2]

/-- Witness for the amended C1: a concrete store (capacity 4) and two appends
under the identical rendering `m{a=1,b=2}`; the query returns both samples. -/
theorem claim_C1_amended_same_rendering_witness :
    ((2 : Nat) ≤ max 1 (4 / max 1 1) ∧ ((0 : Int) ≤ 100 ∧ (100 : Int) ≤ 1000)
        ∧ ((0 : Int) ≤ 200 ∧ (200 : Int) ≤ 1000)) ∧
      (((MemoryStore.create 4 1).append (metric_with_labels "m" [("a", "1"), ("b", "2")])
            100 7).append (metric_with_labels "m" [("a", "1"), ("b", "2")]) 200 8).query
          (metric_with_labels "m" [("a", "1"), ("b", "2")]) 0 1000
        = [Sample.mk 100 7, Sample.mk 200 8] :=
  ⟨⟨by norm_num, ⟨by norm_num, by norm_num⟩, ⟨by norm_num, by norm_num⟩⟩,
    claim_C1_amended_same_rendering "m" [("a", "1"), ("b", "2")] 4 1 100 200 7 8 0 1000
      (by norm_num) ⟨by norm_num, by norm_num⟩ ⟨by norm_num, by norm_num⟩⟩

/-- Claim C10: `append` modifies only the scalar series stored under its
exact selector string; every other scalar series, the whole vector-series
map, the snapshot blobs and the metadata are untouched.  Symmetrically,
`append_vector` modifies only its vector series and leaves the entire scalar
namespace (including the same selector) untouched. -/
theorem claim_C10_append_isolation (st : MemoryStore) (sel : String) (ts : Int) (v : ℚ)
    (vals : List ℚ) (k : String) (hk : k ≠ sel) :
    lookupAssoc (st.append sel ts v).series k = lookupAssoc st.series k ∧
      (st.append sel ts v).vec_series = st.vec_series ∧
      (st.append sel ts v).snapshots = st.snapshots ∧
      (st.append sel ts v).metadata = st.metadata ∧
      lookupAssoc (st.append_vector sel ts vals).vec_series k
          = lookupAssoc st.vec_series k ∧
      (st.append_vector sel ts vals).series = st.series ∧
      (st.append_vector sel ts vals).snapshots = st.snapshots ∧
      (st.append_vector sel ts vals).metadata = st.metadata :=
  ⟨lookupAssoc_storePut_ne st.series sel k _ hk, rfl, rfl, rfl,
    lookupAssoc_storePut_ne st.vec_series sel k _ hk, rfl, rfl, rfl⟩

/-- Witness for C10 at a concrete store holding one scalar series, one vector
series, a snapshot and a metadata entry. -/
theorem claim_C10_append_isolation_witness :
    ("other" ≠ "m" ∧
      lookupAssoc ((((MemoryStore.create 4 1).append "other" 1 2).put_snapshot "processes"
            "blob").append "m" 100 1).series "other"
          = lookupAssoc (((MemoryStore.create 4 1).append "other" 1 2).put_snapshot
            "processes" "blob").series "other") := by
  refine ⟨by decide, ?_⟩
  exact (claim_C10_append_isolation
    (((MemoryStore.create 4 1).append "other" 1 2).put_snapshot "processes" "blob")
    "m" 100 1 [] "other" (by decide)).1

/-- `struct CpuTimes` of cpu_linux.cpp: jiffy counters per category. -/
structure CpuTimes where
  user : Nat
  nice : Nat
  system : Nat
  idle : Nat
  iowait : Nat
  irq : Nat
  softirq : Nat
  steal : Nat
deriving DecidableEq, Repr, Inhabited

/-- `active_time` of cpu_linux.cpp. -/
def active_time (t : CpuTimes) : Nat :=
  t.user + t.nice + t.system + t.irq + t.softirq + t.steal

/-- `total_time` of cpu_linux.cpp. -/
def total_time (t : CpuTimes) : Nat :=
  active_time t + t.idle + t.iowait

/-- The guarded counter difference `(b >= a) ? (b - a) : 0` used by every
collector (cpu_linux.cpp, disk.cpp, net.cpp) on its `uint64_t` counters. -/
def deltaClamped (a b : Nat) : Nat :=
  if a ≤ b then b - a else 0

/-- The percentage computation shared verbatim by `get_cpu_total_percent`
(lines computing `d_active`, `d_total`, then
`(d_total == 0) ? 0 : 100 * d_active / d_total`) and by the per-core loop of
`get_cpu_core_percent`. -/
def cpu_pct_of (a b : CpuTimes) : ℚ :=
  let d_active := deltaClamped (active_time a) (active_time b)
  let d_total := deltaClamped (total_time a) (total_time b)
  if d_total = 0 then 0 else 100 * (d_active : ℚ) / (d_total : ℚ)

/-- The function-local `static` state of `get_cpu_total_percent`. -/
structure CpuTotalState where
  last_total : CpuTimes
  initialized : Bool
deriving DecidableEq, Repr

/-- `get_cpu_total_percent` of cpu_linux.cpp, with the `static` baseline made
an explicit state and the `/proc/stat` read an explicit `Option` input:
`none` models a failed read (return -1.0), the first successful call stores
the baseline and returns 0.0, later calls return the delta percentage. -/
def get_cpu_total_percent (st : CpuTotalState) (read : Option CpuTimes) :
    CpuTotalState × ℚ :=
  match read with
  | none => (st, -1)
  | some cur_total =>
    if !st.initialized then (⟨cur_total, true⟩, 0)
    else (⟨cur_total, true⟩, cpu_pct_of st.last_total cur_total)

/-- The function-local `static` state of `get_cpu_core_percent`. -/
structure CpuCoreState where
  last_per_cpu : List CpuTimes
  initialized : Bool
deriving DecidableEq, Repr

/-- `get_cpu_core_percent` of cpu_linux.cpp: `none` result models returning
`false` (failed read or empty core list).  The first successful call stores
the baseline and reports all-zero percentages; later calls report
`cpu_pct_of` per core index.  (When the current read has more cores than the
stored baseline the C++ indexes `last_per_cpu` out of bounds; the model
totalises that read with a default, and no theorem below relies on it.) -/
def get_cpu_core_percent (st : CpuCoreState) (read : Option (List CpuTimes)) :
    CpuCoreState × Option (List ℚ) :=
  match read with
  | none => (st, none)
  | some cur_per_cpu =>
    if cur_per_cpu.isEmpty then (st, none)
    else if !st.initialized then
      (⟨cur_per_cpu, true⟩, some (List.replicate cur_per_cpu.length 0))
    else
      (⟨cur_per_cpu, true⟩,
        some ((List.range cur_per_cpu.length).map
          (fun i => cpu_pct_of (st.last_per_cpu.getD i default) (cur_per_cpu.getD i default))))

/-- Componentwise non-decreasing jiffy counters between two reads. -/
def CpuMono (a b : CpuTimes) : Prop :=
  a.user ≤ b.user ∧ a.nice ≤ b.nice ∧ a.system ≤ b.system ∧ a.idle ≤ b.idle ∧
    a.iowait ≤ b.iowait ∧ a.irq ≤ b.irq ∧ a.softirq ≤ b.softirq ∧ a.steal ≤ b.steal

theorem deltaClamped_self (x : Nat) : deltaClamped x x = 0 := by
  simp [deltaClamped]

/-- Claim C4: for jiffy readings whose category counters are non-decreasing,
the computed CPU percentage lies in `[0, 100]` and a zero total delta yields
exactly 0; the total-CPU collector emits exactly this value once initialised,
and the per-core collector emits it independently at each core index. -/
theorem claim_C4_cpu_pct_bounds (a b : CpuTimes) (h : CpuMono a b) :
    (0 ≤ cpu_pct_of a b ∧ cpu_pct_of a b ≤ 100 ∧
        (total_time b = total_time a → cpu_pct_of a b = 0)) ∧
      (∀ st : CpuTotalState, st.initialized = true →
          (get_cpu_total_percent st (some b)).2 = cpu_pct_of st.last_total b) ∧
      (∀ (st : CpuCoreState) (cur : List CpuTimes) (i : Nat), st.initialized = true →
          cur.isEmpty = false → i < cur.length →
          ((get_cpu_core_percent st (some cur)).2.getD []).getD i 0
            = cpu_pct_of (st.last_per_cpu.getD i default) (cur.getD i default)) := by
  obtain ⟨h1, h2, h3, h4, h5, h6, h7, h8⟩ := h
  have hact : active_time a ≤ active_time b := by
    unfold active_time
    omega
  have htot : total_time a ≤ total_time b := by
    unfold total_time active_time
    omega
  have hle : deltaClamped (active_time a) (active_time b)
      ≤ deltaClamped (total_time a) (total_time b) := by
    unfold deltaClamped
    rw [if_pos hact, if_pos htot]
    unfold total_time active_time
    omega
  refine ⟨?_, ?_, ?_⟩
  · by_cases hz : deltaClamped (total_time a) (total_time b) = 0
    · unfold cpu_pct_of
      simp [hz]
    · have hdt : (0 : ℚ) < (deltaClamped (total_time a) (total_time b) : ℚ) := by
        exact_mod_cast Nat.pos_of_ne_zero hz
      have hval : cpu_pct_of a b
          = 100 * (deltaClamped (active_time a) (active_time b) : ℚ)
              / (deltaClamped (total_time a) (total_time b) : ℚ) := by
        unfold cpu_pct_of
        simp [hz]
      refine ⟨?_, ?_, ?_⟩
      · rw [hval]
        positivity
      · rw [hval, div_le_iff₀ hdt]
        have hlq : (deltaClamped (active_time a) (active_time b) : ℚ)
            ≤ (deltaClamped (total_time a) (total_time b) : ℚ) := by
          exact_mod_cast hle
        nlinarith
      · intro heq
        exfalso
        apply hz
        rw [heq, deltaClamped_self]
  · intro st hinit
    simp [get_cpu_total_percent, hinit]
  · intro st cur i hinit hne hi
    simp only [get_cpu_core_percent, hne, hinit, Bool.not_true, Bool.false_eq_true,
      if_false, Option.getD_some]
    exact getD_map_range _ _ _ _ hi

/-- Witness for C4: baseline all zeros, current read with 4 active and 6 idle
jiffies over the interval (40% CPU), one-core per-core state. -/
theorem claim_C4_cpu_pct_bounds_witness :
    CpuMono (CpuTimes.mk 0 0 0 0 0 0 0 0) (CpuTimes.mk 3 0 1 6 0 0 0 0) ∧
      ((0 ≤ cpu_pct_of (CpuTimes.mk 0 0 0 0 0 0 0 0) (CpuTimes.mk 3 0 1 6 0 0 0 0) ∧
          cpu_pct_of (CpuTimes.mk 0 0 0 0 0 0 0 0) (CpuTimes.mk 3 0 1 6 0 0 0 0) ≤ 100 ∧
          (total_time (CpuTimes.mk 3 0 1 6 0 0 0 0)
              = total_time (CpuTimes.mk 0 0 0 0 0 0 0 0) →
            cpu_pct_of (CpuTimes.mk 0 0 0 0 0 0 0 0) (CpuTimes.mk 3 0 1 6 0 0 0 0) = 0)) ∧
        (∀ st : CpuTotalState, st.initialized = true →
            (get_cpu_total_percent st (some (CpuTimes.mk 3 0 1 6 0 0 0 0))).2
              = cpu_pct_of st.last_total (CpuTimes.mk 3 0 1 6 0 0 0 0)) ∧
        (∀ (st : CpuCoreState) (cur : List CpuTimes) (i : Nat), st.initialized = true →
            cur.isEmpty = false → i < cur.length →
            ((get_cpu_core_percent st (some cur)).2.getD []).getD i 0
              = cpu_pct_of (st.last_per_cpu.getD i default) (cur.getD i default))) :=
  ⟨⟨by norm_num, by norm_num, by norm_num, by norm_num,
      by norm_num, by norm_num, by norm_num, by norm_num⟩,
    claim_C4_cpu_pct_bounds (CpuTimes.mk 0 0 0 0 0 0 0 0) (CpuTimes.mk 3 0 1 6 0 0 0 0)
      ⟨by norm_num, by norm_num, by norm_num, by norm_num,
        by norm_num, by norm_num, by norm_num, by norm_num⟩⟩

/-- `struct InterfaceCounters` of net.h. -/
structure InterfaceCounters where
  rx_bytes : Nat
  rx_packets : Nat
  rx_errs : Nat
  rx_drop : Nat
  tx_bytes : Nat
  tx_packets : Nat
  tx_errs : Nat
  tx_drop : Nat
deriving DecidableEq, Repr, Inhabited

/-- `struct InterfaceRates` of net.h. -/
structure InterfaceRates where
  rx_bytes_per_s : ℚ
  tx_bytes_per_s : ℚ
deriving DecidableEq, Repr, Inhabited

/-- `NetSnapshot` of net.h (`std::unordered_map<std::string, InterfaceCounters>`). -/
abbrev NetSnapshot := List (String × InterfaceCounters)

/-- The function-local `static` state of `get_net_stats` in net.cpp. -/
structure NetState where
  prev : NetSnapshot
  initialized : Bool
  prev_time : Nat
deriving DecidableEq, Repr

/-- The per-interface emission loop of `get_net_stats`: for every interface
of the current snapshot that also has a previous reading, rates are the
guarded byte deltas divided by `dt_s`. -/
def netEmit (prev curr : NetSnapshot) (dt_s : ℚ) : List (String × InterfaceRates) :=
  curr.filterMap (fun p =>
    match lookupAssoc prev p.1 with
    | none => none
    | some cprev =>
      some (p.1, InterfaceRates.mk
        ((deltaClamped cprev.rx_bytes p.2.rx_bytes : ℚ) / dt_s)
        ((deltaClamped cprev.tx_bytes p.2.tx_bytes : ℚ) / dt_s)))

/-- `get_net_stats` of net.cpp with the `static` baseline made an explicit
state, the `/proc/net/dev` read an explicit `Option` input (`none` = read
failure, return `false`), and the emitted map the second component.

The embedding mirrors the source's control flow faithfully, including the
use-after-move on the first call: inside `if(!initialized)` the source runs
`prev = std::move(curr)` and then falls through (no early return) into the
`dt_s <= 0` branch, which executes `prev = std::move(curr)` a second time on
the already moved-from `curr`.  A moved-from `std::unordered_map` is modelled
as empty (libstdc++ leaves the source container empty), so the first call
ends with an empty baseline. -/
def get_net_stats (st : NetState) (read : Option NetSnapshot) (time_now : Nat) :
    NetState × Option (List (String × InterfaceRates)) :=
  match read with
  | none => (st, none)
  | some curr0 =>
    let stepA : NetState × NetSnapshot :=
      if !st.initialized then (⟨curr0, true, time_now⟩, []) else (st, curr0)
    let st1 := stepA.1
    let curr := stepA.2
    let dt_s : ℚ :=
      if st1.prev_time < time_now then ((time_now - st1.prev_time : Nat) : ℚ) / 1000 else 0
    if dt_s ≤ 0 then (⟨curr, st1.initialized, time_now⟩, some [])
    else (⟨curr, st1.initialized, time_now⟩, some (netEmit st1.prev curr dt_s))

/-- `struct DiskInfo` of disk.h. -/
structure DiskInfo where
  bytes_read : Nat
  bytes_written : Nat
deriving DecidableEq, Repr, Inhabited

/-- `struct DiskIO` of disk.h (per-device output rates). -/
structure DiskIo where
  dev_name : String
  bytes_read_per_s : ℚ
  bytes_written_per_s : ℚ
deriving DecidableEq, Repr, Inhabited

/-- `struct Row` of disk.cpp: one parsed `/proc/diskstats` line. -/
structure Row where
  name : String
  sectors_read : Nat
  sectors_written : Nat
deriving DecidableEq, Repr, Inhabited

/-- The local `struct Delta` of `get_disk_io`. -/
structure Delta where
  rd : Nat
  wr : Nat
deriving DecidableEq, Repr, Inhabited

/-- `name.rfind(prefix, 0) == 0` — the starts-with test of disk.cpp,
implemented over the character list. -/
def strStartsWith (n p : String) : Bool :=
  p.toList.isPrefixOf n.toList

/-- `is_counted_device` of disk.cpp: drop purely virtual or optical
devices. -/
def is_counted_device (n : String) : Bool :=
  !(strStartsWith n "loop" || strStartsWith n "ram"
    || strStartsWith n "sr" || strStartsWith n "fd")

/-- `is_whole_device` of disk.cpp. -/
def is_whole_device (name : String) : Bool :=
  if strStartsWith name "loop" || strStartsWith name "ram"
      || strStartsWith name "sr" || strStartsWith name "fd" then false
  else if strStartsWith name "nvme" then name.toList.all (fun c => c ≠ 'p')
  else if (match name.toList.getLast? with | some c => c.isDigit | none => false) then false
  else true

/-- `base_device_name` of disk.cpp: strip the partition suffix — everything
from the first `p` for NVMe/MMC names, the maximal trailing-digit run for
simple names ending in a digit, the name itself otherwise. -/
def base_device_name (name : String) : String :=
  if strStartsWith name "nvme" || strStartsWith name "mmcblk" then
    String.mk (name.toList.takeWhile (fun c => c ≠ 'p'))
  else if (match name.toList.getLast? with | some c => c.isDigit | none => false) then
    String.mk (name.toList.reverse.dropWhile Char.isDigit).reverse
  else name

/-- The function-local `static` state of `get_disk_io` in disk.cpp. -/
structure DiskState where
  prev_values : List (String × DiskInfo)
  initialized : Bool
  prev_time : Nat
deriving DecidableEq, Repr

/-- The `curr_values` construction of `get_disk_io`, fused with the
`is_counted_device` filter performed while parsing in `read_diskstats`. -/
def currDiskValues (parsed : List Row) : List (String × DiskInfo) :=
  (parsed.filter (fun r => is_counted_device r.name)).map
    (fun r => (r.name, DiskInfo.mk r.sectors_read r.sectors_written))

/-- The per-entry sector-delta loop of `get_disk_io`: entries of the current
map that also have a previous reading, with guarded deltas. -/
def diskDeltas (prev_values curr_values : List (String × DiskInfo)) :
    List (String × Delta) :=
  curr_values.filterMap (fun p =>
    match lookupAssoc prev_values p.1 with
    | none => none
    | some prev =>
      some (p.1, Delta.mk (deltaClamped prev.bytes_read p.2.bytes_read)
        (deltaClamped prev.bytes_written p.2.bytes_written)))

/-- `by_key[k] += d` on the aggregation map (`operator[]` default-constructs
`Delta{0,0}` for a missing key). -/
def addDelta : List (String × Delta) → String → Delta → List (String × Delta)
  | [], k, d => [(k, d)]
  | (k0, d0) :: rest, k, d =>
      if k0 = k then (k0, Delta.mk (d0.rd + d.rd) (d0.wr + d.wr)) :: rest
      else (k0, d0) :: addDelta rest k d

/-- The `AGGREGATE_PARTITIONS` loop of `get_disk_io`: every delta entry is
added once into the slot of its `base_device_name`. -/
def aggregateDeltas (deltas : List (String × Delta)) : List (String × Delta) :=
  deltas.foldl (fun acc p => addDelta acc (base_device_name p.1) p.2) []

/-- The final per-key output loop of `get_disk_io`
(`(d.rd * 512.0) / dt_s` bytes/sec and likewise for writes). -/
def diskOutput (by_key : List (String × Delta)) (dt_s : ℚ) : List DiskIo :=
  by_key.map (fun p =>
    DiskIo.mk p.1 ((p.2.rd : ℚ) * 512 / dt_s) ((p.2.wr : ℚ) * 512 / dt_s))

/-- `get_disk_io` of disk.cpp with explicit state and an explicit read input
(`none` = `/proc/diskstats` unreadable, return `false`).  Unlike the network
collector, the first call returns early inside `if(!initialized)`, so the
baseline genuinely holds the first reading afterwards. -/
def get_disk_io (st : DiskState) (read : Option (List Row)) (time_now : Nat) :
    DiskState × Option (List DiskIo) :=
  match read with
  | none => (st, none)
  | some parsed =>
    let curr_values := currDiskValues parsed
    if !st.initialized then (⟨curr_values, true, time_now⟩, some [])
    else
      let dt_s : ℚ :=
        if st.prev_time < time_now then ((time_now - st.prev_time : Nat) : ℚ) / 1000 else 0
      if dt_s ≤ 0 then (⟨curr_values, st.initialized, time_now⟩, some [])
      else
        (⟨curr_values, st.initialized, time_now⟩,
          some (diskOutput (aggregateDeltas (diskDeltas st.prev_values curr_values)) dt_s))

/-- Claim C2 evaluated at a failing input (network collector): the first call
(fresh key `eth0`, readable source, t=1000) emits nothing — as specified —
but it also leaves the stored baseline EMPTY (`prev` is overwritten with the
moved-from map), so the second call (advancing clock t=2000, readable source,
same key) emits no rate sample either, contradicting the claim; the first
rate only appears on the third call. -/
theorem claim_C2_net_baseline_lost :
    (get_net_stats ⟨[], false, 0⟩
        (some [("eth0", InterfaceCounters.mk 0 0 0 0 0 0 0 0)]) 1000).2 = some [] ∧
      (get_net_stats ⟨[], false, 0⟩
          (some [("eth0", InterfaceCounters.mk 0 0 0 0 0 0 0 0)]) 1000).1
        = ⟨[], true, 1000⟩ ∧
      (get_net_stats (get_net_stats ⟨[], false, 0⟩
            (some [("eth0", InterfaceCounters.mk 0 0 0 0 0 0 0 0)]) 1000).1
          (some [("eth0", InterfaceCounters.mk 1000 0 0 0 1000 0 0 0)]) 2000).2 = some [] ∧
      (get_net_stats ⟨[("eth0", InterfaceCounters.mk 1000 0 0 0 1000 0 0 0)], true, 2000⟩
          (some [("eth0", InterfaceCounters.mk 2000 0 0 0 2000 0 0 0)]) 3000).2
        = some [("eth0", InterfaceRates.mk 1000 1000)] := by
  have hfirst : (get_net_stats ⟨[], false, 0⟩
      (some [("eth0", InterfaceCounters.mk 0 0 0 0 0 0 0 0)]) 1000)
      = (⟨[], true, 1000⟩, some []) := by
    norm_num [get_net_stats]
  refine ⟨?_, ?_, ?_, ?_⟩
  · rw [hfirst]
  · rw [hfirst]
  · rw [hfirst]
    norm_num [get_net_stats, netEmit, lookupAssoc]
  · norm_num [get_net_stats, netEmit, lookupAssoc, deltaClamped, List.filterMap_cons]

theorem netEmit_mem_nonneg (prev curr : NetSnapshot) (dt : ℚ) (hdt : 0 < dt)
    (p : String × InterfaceRates) (h : p ∈ netEmit prev curr dt) :
    0 ≤ p.2.rx_bytes_per_s ∧ 0 ≤ p.2.tx_bytes_per_s := by
  obtain ⟨q, hq, hfq⟩ := List.mem_filterMap.mp h
  cases hl : lookupAssoc prev q.1 with
  | none => rw [hl] at hfq; simp at hfq
  | some cprev =>
    rw [hl] at hfq
    rw [Option.some_inj] at hfq
    subst hfq
    exact ⟨div_nonneg (Nat.cast_nonneg _) (le_of_lt hdt),
      div_nonneg (Nat.cast_nonneg _) (le_of_lt hdt)⟩

theorem diskOutput_mem_nonneg (by_key : List (String × Delta)) (dt : ℚ) (hdt : 0 < dt)
    (d : DiskIo) (h : d ∈ diskOutput by_key dt) :
    0 ≤ d.bytes_read_per_s ∧ 0 ≤ d.bytes_written_per_s := by
  obtain ⟨q, hq, hfq⟩ := List.mem_map.mp h
  subst hfq
  exact ⟨div_nonneg (by positivity) (le_of_lt hdt),
    div_nonneg (by positivity) (le_of_lt hdt)⟩

/-- Every possible output of `get_net_stats`: a failed read (`none`), an
empty emission, or the per-interface rate map computed with a positive
`dt_s`. -/
theorem get_net_stats_out_shape (st : NetState) (read : Option NetSnapshot) (t : Nat) :
    (get_net_stats st read t).2 = none ∨ (get_net_stats st read t).2 = some [] ∨
      ∃ (prev curr : NetSnapshot) (dt : ℚ), 0 < dt ∧
        (get_net_stats st read t).2 = some (netEmit prev curr dt) := by
  cases read with
  | none => left; rfl
  | some curr0 =>
    right
    simp only [get_net_stats]
    by_cases hinit : (!st.initialized) = true
    · rw [if_pos hinit]
      dsimp only
      rw [if_neg (lt_irrefl t), if_pos (le_refl (0 : ℚ))]
      left
      rfl
    · rw [if_neg hinit]
      dsimp only
      by_cases hdt : ((if st.prev_time < t
            then ((t - st.prev_time : Nat) : ℚ) / 1000 else 0) ≤ 0)
      · rw [if_pos hdt]
        left
        rfl
      · rw [if_neg hdt]
        right
        exact ⟨st.prev, curr0, _, by rwa [not_le] at hdt, rfl⟩

/-- Every possible output of `get_disk_io`: a failed read (`none`), an empty
emission (first tick or non-advancing clock), or the aggregated per-device
rate list computed with a positive `dt_s`. -/
theorem get_disk_io_out_shape (st : DiskState) (read : Option (List Row)) (t : Nat) :
    (get_disk_io st read t).2 = none ∨ (get_disk_io st read t).2 = some [] ∨
      ∃ (by_key : List (String × Delta)) (dt : ℚ), 0 < dt ∧
        (get_disk_io st read t).2 = some (diskOutput by_key dt) := by
  cases read with
  | none => left; rfl
  | some parsed =>
    right
    simp only [get_disk_io]
    by_cases hinit : (!st.initialized) = true
    · rw [if_pos hinit]
      left
      rfl
    · rw [if_neg hinit]
      by_cases hdt : ((if st.prev_time < t
            then ((t - st.prev_time : Nat) : ℚ) / 1000 else 0) ≤ 0)
      · rw [if_pos hdt]
        left
        rfl
      · rw [if_neg hdt]
        right
        exact ⟨_, _, by rwa [not_le] at hdt, rfl⟩

/-- Claim C7: for consecutive readings `(a, b)` of a cumulative counter the
delta used by every collector is `deltaClamped a b = max(0, b-a)`; under the
`b ≥ a` guard the unsigned subtraction cannot wrap; and the emitted values
are never negative: every CPU percentage and every network/disk rate that
the collectors output is ≥ 0, even when `b < a` (counter reset). -/
theorem claim_C7_counter_delta_nonneg :
    (∀ a b : Nat, (deltaClamped a b : ℤ) = max 0 ((b : ℤ) - (a : ℤ))) ∧
      (∀ a b : Nat, a ≤ b → b < 2 ^ 64 →
          (b + (2 ^ 64 - a)) % 2 ^ 64 = b - a ∧ b - a < 2 ^ 64) ∧
      (∀ a b : CpuTimes, 0 ≤ cpu_pct_of a b) ∧
      (∀ (st : NetState) (read : Option NetSnapshot) (t : Nat)
          (l : List (String × InterfaceRates)) (p : String × InterfaceRates),
          (get_net_stats st read t).2 = some l → p ∈ l →
          0 ≤ p.2.rx_bytes_per_s ∧ 0 ≤ p.2.tx_bytes_per_s) ∧
      (∀ (st : DiskState) (read : Option (List Row)) (t : Nat)
          (l : List DiskIo) (d : DiskIo),
          (get_disk_io st read t).2 = some l → d ∈ l →
          0 ≤ d.bytes_read_per_s ∧ 0 ≤ d.bytes_written_per_s) := by
  refine ⟨?_, ?_, ?_, ?_, ?_⟩
  · intro a b
    unfold deltaClamped
    split <;> omega
  · intro a b hab hb
    omega
  · intro a b
    by_cases hz : deltaClamped (total_time a) (total_time b) = 0
    · simp [cpu_pct_of, hz]
    · have hval : cpu_pct_of a b
          = 100 * (deltaClamped (active_time a) (active_time b) : ℚ)
              / (deltaClamped (total_time a) (total_time b) : ℚ) := by
        simp [cpu_pct_of, hz]
      rw [hval]
      positivity
  · intro st read t l p hsome hmem
    rcases get_net_stats_out_shape st read t with h | h | ⟨prev, curr, dt, hdt, h⟩
    · rw [h] at hsome
      exact absurd hsome (by simp)
    · rw [h] at hsome
      rw [Option.some_inj] at hsome
      subst hsome
      simp at hmem
    · rw [h] at hsome
      rw [Option.some_inj] at hsome
      subst hsome
      exact netEmit_mem_nonneg prev curr dt hdt p hmem
  · intro st read t l d hsome hmem
    rcases get_disk_io_out_shape st read t with h | h | ⟨by_key, dt, hdt, h⟩
    · rw [h] at hsome
      exact absurd hsome (by simp)
    · rw [h] at hsome
      rw [Option.some_inj] at hsome
      subst hsome
      simp at hmem
    · rw [h] at hsome
      rw [Option.some_inj] at hsome
      subst hsome
      exact diskOutput_mem_nonneg by_key dt hdt d hmem

/-- Witness for C7 at concrete counter resets (`b < a`): the clamped delta is
0, never negative, for the arithmetic form, the CPU percentage, and the
network and disk rates actually emitted. -/
theorem claim_C7_counter_delta_nonneg_witness :
    ((deltaClamped 5 3 : ℤ) = max 0 ((3 : ℤ) - (5 : ℤ))) ∧
      (5 ≤ 7 ∧ 7 < 2 ^ 64 ∧ ((7 + (2 ^ 64 - 5)) % 2 ^ 64 = 7 - 5 ∧ 7 - 5 < 2 ^ 64)) ∧
      (0 ≤ cpu_pct_of (CpuTimes.mk 9 9 9 9 9 9 9 9) (CpuTimes.mk 0 0 0 0 0 0 0 0)) ∧
      ((get_net_stats ⟨[("eth0", InterfaceCounters.mk 1000 0 0 0 1000 0 0 0)], true, 2000⟩
            (some [("eth0", InterfaceCounters.mk 500 0 0 0 500 0 0 0)]) 3000).2
          = some [("eth0", InterfaceRates.mk 0 0)] ∧
        ("eth0", InterfaceRates.mk 0 0) ∈ [("eth0", InterfaceRates.mk 0 0)] ∧
        (0 ≤ (InterfaceRates.mk 0 0).rx_bytes_per_s ∧
          0 ≤ (InterfaceRates.mk 0 0).tx_bytes_per_s)) ∧
      ((get_disk_io ⟨[("sda", DiskInfo.mk 100 100)], true, 1000⟩
            (some [Row.mk "sda" 50 50]) 2000).2 = some [DiskIo.mk "sda" 0 0] ∧
        DiskIo.mk "sda" 0 0 ∈ [DiskIo.mk "sda" 0 0] ∧
        (0 ≤ (DiskIo.mk "sda" 0 0).bytes_read_per_s ∧
          0 ≤ (DiskIo.mk "sda" 0 0).bytes_written_per_s)) := by
  have hnet : (get_net_stats ⟨[("eth0", InterfaceCounters.mk 1000 0 0 0 1000 0 0 0)], true, 2000⟩
      (some [("eth0", InterfaceCounters.mk 500 0 0 0 500 0 0 0)]) 3000).2
      = some [("eth0", InterfaceRates.mk 0 0)] := by
    norm_num [get_net_stats, netEmit, lookupAssoc, deltaClamped, List.filterMap_cons]
  have hcv : currDiskValues [Row.mk "sda" 50 50] = [("sda", DiskInfo.mk 50 50)] := by decide
  have hdd : diskDeltas [("sda", DiskInfo.mk 100 100)] [("sda", DiskInfo.mk 50 50)]
      = [("sda", Delta.mk 0 0)] := by decide
  have hag : aggregateDeltas [("sda", Delta.mk 0 0)] = [("sda", Delta.mk 0 0)] := by decide
  have hdisk : (get_disk_io ⟨[("sda", DiskInfo.mk 100 100)], true, 1000⟩
      (some [Row.mk "sda" 50 50]) 2000).2 = some [DiskIo.mk "sda" 0 0] := by
    simp only [get_disk_io]
    rw [if_neg (by decide)]
    rw [if_neg (by norm_num :
      ¬ ((if (1000 : Nat) < 2000 then ((2000 - 1000 : Nat) : ℚ) / 1000 else 0) ≤ 0))]
    dsimp only
    rw [hcv, hdd, hag]
    norm_num [diskOutput]
  refine ⟨claim_C7_counter_delta_nonneg.1 5 3,
    ⟨by norm_num, by norm_num, claim_C7_counter_delta_nonneg.2.1 5 7 (by norm_num) (by norm_num)⟩,
    claim_C7_counter_delta_nonneg.2.2.1 (CpuTimes.mk 9 9 9 9 9 9 9 9) (CpuTimes.mk 0 0 0 0 0 0 0 0),
    ⟨hnet, by simp, claim_C7_counter_delta_nonneg.2.2.2.1 _ _ _ _
      ("eth0", InterfaceRates.mk 0 0) hnet (by simp)⟩,
    ⟨hdisk, by simp, claim_C7_counter_delta_nonneg.2.2.2.2 _ _ _ _
      (DiskIo.mk "sda" 0 0) hdisk (by simp)⟩⟩

/-- A strictly advancing clock gives a strictly positive `dt_s`. -/
theorem dt_s_pos (t t2 : Nat) (h : t < t2) : ¬ (((t2 - t : Nat) : ℚ) / 1000 ≤ 0) := by
  rw [not_le]
  have h1 : (0 : ℚ) < ((t2 - t : Nat) : ℚ) := by
    exact_mod_cast Nat.sub_pos_of_lt h
  positivity

/-- An initialised network collector fed an advancing clock emits the rate
map computed against its stored baseline. -/
theorem get_net_stats_advancing (prev : NetSnapshot) (t t2 : Nat) (h : t < t2)
    (curr2 : NetSnapshot) :
    get_net_stats ⟨prev, true, t⟩ (some curr2) t2
      = (⟨curr2, true, t2⟩, some (netEmit prev curr2 (((t2 - t : Nat) : ℚ) / 1000))) := by
  simp only [get_net_stats]
  rw [if_neg (by simp : ¬ ((!(NetState.mk prev true t).initialized) = true))]
  dsimp only
  rw [if_pos h, if_neg (dt_s_pos t t2 h)]

/-- An initialised disk collector fed an advancing clock emits the aggregated
rate list computed against its stored baseline. -/
theorem get_disk_io_advancing (prevv : List (String × DiskInfo)) (t t2 : Nat) (h : t < t2)
    (parsed2 : List Row) :
    get_disk_io ⟨prevv, true, t⟩ (some parsed2) t2
      = (⟨currDiskValues parsed2, true, t2⟩,
          some (diskOutput (aggregateDeltas (diskDeltas prevv (currDiskValues parsed2)))
            (((t2 - t : Nat) : ℚ) / 1000))) := by
  simp only [get_disk_io]
  rw [if_neg (by simp : ¬ ((!(DiskState.mk prevv true t).initialized) = true))]
  rw [if_pos h, if_neg (dt_s_pos t t2 h)]

/-- Claim C8: a tick whose timestamp equals or precedes the previous tick's
timestamp emits no rate samples (so the `dt_s` division is never reached),
and leaves the baseline updated to the current reading and the current
timestamp; the next tick with an advancing clock then computes the rates
against that baseline.  Stated for the network and disk collectors, the two
that keep a wall-clock baseline. -/
theorem claim_C8_zero_dt_safety (st : NetState) (std : DiskState)
    (curr : NetSnapshot) (parsed : List Row) (t t2 : Nat)
    (hiN : st.initialized = true) (hiD : std.initialized = true)
    (ht : t ≤ st.prev_time) (htd : t ≤ std.prev_time) (hadv : t < t2)
    (curr2 : NetSnapshot) (parsed2 : List Row) :
    get_net_stats st (some curr) t = (⟨curr, true, t⟩, some []) ∧
      get_disk_io std (some parsed) t = (⟨currDiskValues parsed, true, t⟩, some []) ∧
      get_net_stats ⟨curr, true, t⟩ (some curr2) t2
        = (⟨curr2, true, t2⟩, some (netEmit curr curr2 (((t2 - t : Nat) : ℚ) / 1000))) ∧
      get_disk_io ⟨currDiskValues parsed, true, t⟩ (some parsed2) t2
        = (⟨currDiskValues parsed2, true, t2⟩,
            some (diskOutput (aggregateDeltas (diskDeltas (currDiskValues parsed)
              (currDiskValues parsed2))) (((t2 - t : Nat) : ℚ) / 1000))) := by
  refine ⟨?_, ?_, get_net_stats_advancing curr t t2 hadv curr2,
    get_disk_io_advancing (currDiskValues parsed) t t2 hadv parsed2⟩
  · simp only [get_net_stats]
    rw [if_neg (by simp [hiN] : ¬ ((!st.initialized) = true))]
    rw [if_neg (not_lt.mpr ht), if_pos (le_refl (0 : ℚ))]
    rw [hiN]
  · simp only [get_disk_io]
    rw [if_neg (by simp [hiD] : ¬ ((!std.initialized) = true))]
    rw [if_neg (not_lt.mpr htd), if_pos (le_refl (0 : ℚ))]
    rw [hiD]

/-- Witness for C8: both collectors initialised at t=1000, fed a second tick
with the identical timestamp 1000 and then a tick at t=2000. -/
theorem claim_C8_zero_dt_safety_witness :
    ((NetState.mk [] true 1000).initialized = true ∧
        (DiskState.mk [] true 1000).initialized = true ∧
        1000 ≤ (NetState.mk [] true 1000).prev_time ∧
        1000 ≤ (DiskState.mk [] true 1000).prev_time ∧ 1000 < 2000) ∧
      (get_net_stats ⟨[], true, 1000⟩ (some []) 1000 = (⟨[], true, 1000⟩, some []) ∧
        get_disk_io ⟨[], true, 1000⟩ (some []) 1000
          = (⟨currDiskValues [], true, 1000⟩, some []) ∧
        get_net_stats ⟨[], true, 1000⟩ (some []) 2000
          = (⟨[], true, 2000⟩, some (netEmit [] [] (((2000 - 1000 : Nat) : ℚ) / 1000))) ∧
        get_disk_io ⟨currDiskValues [], true, 1000⟩ (some []) 2000
          = (⟨currDiskValues [], true, 2000⟩,
              some (diskOutput (aggregateDeltas (diskDeltas (currDiskValues [])
                (currDiskValues []))) (((2000 - 1000 : Nat) : ℚ) / 1000)))) :=
  ⟨⟨rfl, rfl, le_refl _, le_refl _, by norm_num⟩,
    claim_C8_zero_dt_safety ⟨[], true, 1000⟩ ⟨[], true, 1000⟩ [] [] 1000 2000
      rfl rfl (le_refl _) (le_refl _) (by norm_num) [] []⟩

/-- The read-sector delta total of the entries of `deltas` whose
`base_device_name` is `k`. -/
def groupRd (deltas : List (String × Delta)) (k : String) : Nat :=
  ((deltas.filter (fun p => base_device_name p.1 = k)).map (fun p => p.2.rd)).sum

/-- The written-sector delta total of the entries of `deltas` whose
`base_device_name` is `k`. -/
def groupWr (deltas : List (String × Delta)) (k : String) : Nat :=
  ((deltas.filter (fun p => base_device_name p.1 = k)).map (fun p => p.2.wr)).sum

/-- Total of read-sector deltas across a map. -/
def sumRd (l : List (String × Delta)) : Nat :=
  (l.map (fun p => p.2.rd)).sum

/-- Total of written-sector deltas across a map. -/
def sumWr (l : List (String × Delta)) : Nat :=
  (l.map (fun p => p.2.wr)).sum

theorem lookupAssoc_addDelta_self (l : List (String × Delta)) (k : String) (d : Delta) :
    lookupAssoc (addDelta l k d) k
      = some (match lookupAssoc l k with
              | some d0 => Delta.mk (d0.rd + d.rd) (d0.wr + d.wr)
              | none => d) := by
  induction l with
  | nil => simp [addDelta, lookupAssoc]
  | cons a l ih =>
    obtain ⟨k1, d1⟩ := a
    by_cases h : k1 = k
    · subst h
      simp [addDelta, lookupAssoc]
    · simp [addDelta, h, lookupAssoc, ih]

theorem lookupAssoc_addDelta_ne (l : List (String × Delta)) (k k0 : String) (d : Delta)
    (h : k0 ≠ k) : lookupAssoc (addDelta l k d) k0 = lookupAssoc l k0 := by
  have hk : ¬ k = k0 := fun e => h e.symm
  induction l with
  | nil => simp [addDelta, lookupAssoc, hk]
  | cons a l ih =>
    obtain ⟨k1, d1⟩ := a
    by_cases ha : k1 = k
    · subst ha
      simp [addDelta, lookupAssoc, hk]
    · simp [addDelta, ha, lookupAssoc, ih]

theorem aggregate_fold_lookup (deltas : List (String × Delta))
    (acc : List (String × Delta)) (k : String) :
    lookupAssoc (deltas.foldl (fun acc p => addDelta acc (base_device_name p.1) p.2) acc) k
      = match lookupAssoc acc k with
        | some d0 => some (Delta.mk (d0.rd + groupRd deltas k) (d0.wr + groupWr deltas k))
        | none =>
            if deltas.any (fun p => base_device_name p.1 = k)
            then some (Delta.mk (groupRd deltas k) (groupWr deltas k)) else none := by
  induction deltas generalizing acc with
  | nil =>
    cases hl : lookupAssoc acc k <;> simp [groupRd, groupWr, hl]
  | cons p rest ih =>
    rw [List.foldl_cons, ih]
    by_cases hb : base_device_name p.1 = k
    · rw [hb, lookupAssoc_addDelta_self]
      cases hl : lookupAssoc acc k with
      | none =>
        simp only [hl]
        simp [groupRd, groupWr, hb]
      | some d0 =>
        simp only [hl]
        simp [groupRd, groupWr, hb]
        omega
    · rw [lookupAssoc_addDelta_ne _ _ _ _ (fun e => hb e.symm)]
      cases hl : lookupAssoc acc k with
      | none =>
        simp only [hl]
        simp [groupRd, groupWr, hb]
        rw [decide_eq_false hb, Bool.false_or]
      | some d0 =>
        simp only [hl]
        simp [groupRd, groupWr, hb]

/-- The aggregation map of `get_disk_io` holds, under each whole-device key,
exactly the sum of the deltas of the entries whose base name is that key. -/
theorem aggregate_lookup (deltas : List (String × Delta)) (k : String) :
    lookupAssoc (aggregateDeltas deltas) k
      = if deltas.any (fun p => base_device_name p.1 = k)
        then some (Delta.mk (groupRd deltas k) (groupWr deltas k)) else none := by
  have h := aggregate_fold_lookup deltas [] k
  rw [aggregateDeltas]
  rw [h]
  rfl

theorem sumRd_addDelta (l : List (String × Delta)) (k : String) (d : Delta) :
    sumRd (addDelta l k d) = sumRd l + d.rd := by
  induction l with
  | nil => simp [addDelta, sumRd]
  | cons a l ih =>
    obtain ⟨k1, d1⟩ := a
    by_cases h : k1 = k
    · subst h
      simp [addDelta, sumRd]
      omega
    · simp [addDelta, h, sumRd] at ih ⊢
      omega

theorem sumWr_addDelta (l : List (String × Delta)) (k : String) (d : Delta) :
    sumWr (addDelta l k d) = sumWr l + d.wr := by
  induction l with
  | nil => simp [addDelta, sumWr]
  | cons a l ih =>
    obtain ⟨k1, d1⟩ := a
    by_cases h : k1 = k
    · subst h
      simp [addDelta, sumWr]
      omega
    · simp [addDelta, h, sumWr] at ih ⊢
      omega

theorem sum_aggregate_fold (deltas : List (String × Delta)) (acc : List (String × Delta)) :
    sumRd (deltas.foldl (fun acc p => addDelta acc (base_device_name p.1) p.2) acc)
        = sumRd acc + sumRd deltas ∧
      sumWr (deltas.foldl (fun acc p => addDelta acc (base_device_name p.1) p.2) acc)
        = sumWr acc + sumWr deltas := by
  induction deltas generalizing acc with
  | nil => simp [sumRd, sumWr]
  | cons p rest ih =>
    rw [List.foldl_cons]
    obtain ⟨ih1, ih2⟩ := ih (addDelta acc (base_device_name p.1) p.2)
    rw [ih1, ih2, sumRd_addDelta, sumWr_addDelta]
    constructor <;> simp [sumRd, sumWr] <;> omega

/-- Claim C3: in the disk collector the per-entry deltas are grouped by
`base_device_name` (trailing digits stripped for simple names, the `p…`
suffix for NVMe/MMC-style names): the aggregate under each whole-device key
is exactly the sum of the deltas of the entries with that base name, every
entry is counted exactly once (grand totals are preserved), and on any tick
after the first with an advancing clock the emitted per-device rates are
computed from exactly this aggregation. -/
theorem claim_C3_disk_partition_aggregation :
    (∀ (deltas : List (String × Delta)) (k : String),
        lookupAssoc (aggregateDeltas deltas) k
          = if deltas.any (fun p => base_device_name p.1 = k)
            then some (Delta.mk (groupRd deltas k) (groupWr deltas k)) else none) ∧
      (∀ deltas : List (String × Delta),
          sumRd (aggregateDeltas deltas) = sumRd deltas ∧
          sumWr (aggregateDeltas deltas) = sumWr deltas) ∧
      (base_device_name "sda1" = "sda" ∧ base_device_name "sda" = "sda" ∧
        base_device_name "nvme0n1p3" = "nvme0n1" ∧ base_device_name "nvme0n1" = "nvme0n1" ∧
        base_device_name "mmcblk0p2" = "mmcblk0") ∧
      (∀ (prevv : List (String × DiskInfo)) (t t2 : Nat), t < t2 → ∀ parsed2 : List Row,
          (get_disk_io ⟨prevv, true, t⟩ (some parsed2) t2).2
            = some (diskOutput (aggregateDeltas (diskDeltas prevv (currDiskValues parsed2)))
                (((t2 - t : Nat) : ℚ) / 1000))) := by
  refine ⟨aggregate_lookup, ?_, ?_, ?_⟩
  · intro deltas
    have h := sum_aggregate_fold deltas []
    constructor
    · have h1 := h.1
      simpa [aggregateDeltas, sumRd] using h1
    · have h2 := h.2
      simpa [aggregateDeltas, sumWr] using h2
  · refine ⟨by decide, by decide, by decide, by decide, by decide⟩
  · intro prevv t t2 h parsed2
    rw [get_disk_io_advancing prevv t t2 h parsed2]

/-- Witness for C3: `sda` and its partition `sda1` aggregate under `sda`
(read deltas 1+3, write deltas 2+4), `sdb` stays separate; plus a concrete
post-first-tick emission. -/
theorem claim_C3_disk_partition_aggregation_witness :
    (lookupAssoc (aggregateDeltas
          [("sda", Delta.mk 1 2), ("sda1", Delta.mk 3 4), ("sdb", Delta.mk 5 6)]) "sda"
        = if ([("sda", Delta.mk 1 2), ("sda1", Delta.mk 3 4), ("sdb", Delta.mk 5 6)]).any
              (fun p => base_device_name p.1 = "sda")
          then some (Delta.mk
              (groupRd [("sda", Delta.mk 1 2), ("sda1", Delta.mk 3 4), ("sdb", Delta.mk 5 6)]
                "sda")
              (groupWr [("sda", Delta.mk 1 2), ("sda1", Delta.mk 3 4), ("sdb", Delta.mk 5 6)]
                "sda"))
          else none) ∧
      lookupAssoc (aggregateDeltas
          [("sda", Delta.mk 1 2), ("sda1", Delta.mk 3 4), ("sdb", Delta.mk 5 6)]) "sda"
        = some (Delta.mk 4 6) ∧
      (1000 < 2000 ∧
        (get_disk_io ⟨[], true, 1000⟩ (some []) 2000).2
          = some (diskOutput (aggregateDeltas (diskDeltas [] (currDiskValues [])))
              (((2000 - 1000 : Nat) : ℚ) / 1000))) :=
  ⟨claim_C3_disk_partition_aggregation.1
      [("sda", Delta.mk 1 2), ("sda1", Delta.mk 3 4), ("sdb", Delta.mk 5 6)] "sda",
    by decide,
    by norm_num,
    claim_C3_disk_partition_aggregation.2.2.2 [] 1000 2000 (by norm_num) []⟩

/-- Association-list lookup on integer PID keys (`by_pid.find(pid)`). -/
def lookupPid {β : Type} : List (Int × β) → Int → Option β
  | [], _ => none
  | (k, v) :: rest, key => if k = key then some v else lookupPid rest key

/-- `username_from_uid` of proc.cpp resolves through `getpwuid`, an external
environment lookup, and falls back to the printed uid; the model uses the
fallback rendering (no property below depends on the user string). -/
def username_from_uid (uid : Nat) : String :=
  toString uid

/-- `procmon::ProcSample` of proc.h. -/
structure ProcSample where
  pid : Int
  ppid : Int
  utime_ticks : Nat
  stime_ticks : Nat
  starttime_ticks : Nat
  rss_kb : Nat
  ctx_switches : Nat
  threads : Nat
  priority : Int
  nice : Int
  uid : Nat
  state : Char
  comm : String
  cmdline : String
deriving DecidableEq, Repr, Inhabited

/-- `procmon::ProcSnapshot` of proc.h. -/
structure ProcSnapshot where
  total_jiffies : Nat
  by_pid : List (Int × ProcSample)
  memtotal_kb : Nat
  hz : Int
deriving DecidableEq, Repr, Inhabited

/-- `procmon::ProcRow` of proc.h. -/
structure ProcRow where
  pid : Int
  ppid : Int
  user : String
  name : String
  state : Char
  cpu_pct : ℚ
  cpu_time_s : ℚ
  threads : Nat
  wakeups_per_s : ℚ
  rss_mb : ℚ
  mem_pct : ℚ
  priority : Int
  nice : Int
deriving DecidableEq, Repr, Inhabited

/-- `procmon::compute_proc_rows` of proc.cpp: the time base `dt` comes from
the aggregate-jiffies delta over `HZ` (clamped to one tick when
non-positive); PIDs present only in `cur` get `cpu_pct = 0` and
`wakeups_per_s = 0`; existing PIDs get clamped per-process tick deltas. -/
def compute_proc_rows (prev cur : ProcSnapshot) : List ProcRow :=
  if prev.hz ≤ 0 ∨ cur.hz ≤ 0 then []
  else
    let dt0 : ℚ :=
      ((if prev.total_jiffies < cur.total_jiffies
          then cur.total_jiffies - prev.total_jiffies else 1 : Nat) : ℚ) / (cur.hz : ℚ)
    let dt := if dt0 ≤ 0 then 1 else dt0
    let memtotal_kb : ℚ := if 0 < cur.memtotal_kb then (cur.memtotal_kb : ℚ) else 0
    cur.by_pid.map (fun pb =>
      let b := pb.2
      match lookupPid prev.by_pid pb.1 with
      | none =>
        { pid := pb.1, ppid := b.ppid, user := username_from_uid b.uid,
          name := if b.cmdline = "" then "[" ++ b.comm ++ "]" else b.cmdline,
          state := b.state,
          cpu_pct := 0,
          cpu_time_s := ((b.utime_ticks + b.stime_ticks : Nat) : ℚ) / (cur.hz : ℚ),
          threads := b.threads,
          wakeups_per_s := 0,
          rss_mb := (b.rss_kb : ℚ) / 1024,
          mem_pct := if 0 < memtotal_kb then 100 * (b.rss_kb : ℚ) / memtotal_kb else 0,
          priority := b.priority, nice := b.nice }
      | some a =>
        let dut := deltaClamped a.utime_ticks b.utime_ticks
        let dst := deltaClamped a.stime_ticks b.stime_ticks
        let dproc_s : ℚ := ((dut + dst : Nat) : ℚ) / (cur.hz : ℚ)
        let dcs := deltaClamped a.ctx_switches b.ctx_switches
        { pid := pb.1, ppid := b.ppid, user := username_from_uid b.uid,
          name := if b.cmdline = "" then "[" ++ b.comm ++ "]" else b.cmdline,
          state := b.state,
          cpu_pct := if 0 < dt then 100 * dproc_s / dt else 0,
          cpu_time_s := ((b.utime_ticks + b.stime_ticks : Nat) : ℚ) / (cur.hz : ℚ),
          threads := b.threads,
          wakeups_per_s := if 0 < dt then (dcs : ℚ) / dt else 0,
          rss_mb := (b.rss_kb : ℚ) / 1024,
          mem_pct := if 0 < memtotal_kb then 100 * (b.rss_kb : ℚ) / memtotal_kb else 0,
          priority := b.priority, nice := b.nice })

/-- The comparator of `procmon::top_by_cpu`:
`[](x, y) { return x.cpu_pct > y.cpu_pct; }`. -/
def cmpByCpu (x y : ProcRow) : Bool :=
  y.cpu_pct < x.cpu_pct

/-- One insertion step of a stable sort with comparator `cmp`: the new
element `x` (which originally precedes every element of the list) is placed
before the first element NOT strictly preceding it under `cmp`. -/
def stableInsert (cmp : α → α → Bool) (x : α) : List α → List α
  | [] => [x]
  | y :: ys => if cmp y x then y :: stableInsert cmp x ys else x :: y :: ys

/-- `std::stable_sort`, which the C++ standard specifies extensionally
(output sorted under the comparator, equivalent elements in input order),
realised as an insertion sort — the unique function meeting that
specification, as proved below (sortedness, permutation, stability). -/
def stableSort (cmp : α → α → Bool) : List α → List α
  | [] => []
  | x :: xs => stableInsert cmp x (stableSort cmp xs)

/-- `procmon::top_by_cpu` of proc.cpp: diff, stable-sort descending by
`cpu_pct`, then `if (limit && rows.size() > limit) rows.resize(limit)`. -/
def top_by_cpu (prev cur : ProcSnapshot) (limit : Nat) : List ProcRow :=
  let rows := compute_proc_rows prev cur
  let sorted := stableSort cmpByCpu rows
  if limit ≠ 0 ∧ limit < sorted.length then sorted.take limit else sorted

/-- `stableInsert` with the `top_by_cpu` comparator coincides with ordered
insertion under the reflexive descending order `b.cpu_pct ≤ a.cpu_pct`. -/
theorem stableInsert_eq_orderedInsert (x : ProcRow) (l : List ProcRow) :
    stableInsert cmpByCpu x l
      = List.orderedInsert (fun a b : ProcRow => b.cpu_pct ≤ a.cpu_pct) x l := by
  induction l with
  | nil => rfl
  | cons y ys ih =>
    simp only [stableInsert, List.orderedInsert, cmpByCpu]
    by_cases h : x.cpu_pct < y.cpu_pct
    · rw [if_pos (by simpa using h), if_neg (not_le.mpr h), ih]
    · rw [if_neg (by simpa using h), if_pos (not_lt.mp h)]

theorem stableSort_eq_insertionSort (l : List ProcRow) :
    stableSort cmpByCpu l
      = List.insertionSort (fun a b : ProcRow => b.cpu_pct ≤ a.cpu_pct) l := by
  induction l with
  | nil => rfl
  | cons x xs ih =>
    simp only [stableSort, List.insertionSort, stableInsert_eq_orderedInsert, ih]

theorem stableSort_sorted (l : List ProcRow) :
    (stableSort cmpByCpu l).Pairwise (fun a b : ProcRow => b.cpu_pct ≤ a.cpu_pct) := by
  rw [stableSort_eq_insertionSort]
  haveI h1 : IsTotal ProcRow (fun a b : ProcRow => b.cpu_pct ≤ a.cpu_pct) :=
    ⟨fun a b => le_total b.cpu_pct a.cpu_pct⟩
  haveI h2 : IsTrans ProcRow (fun a b : ProcRow => b.cpu_pct ≤ a.cpu_pct) :=
    ⟨fun a b c hab hbc => le_trans hbc hab⟩
  exact List.sorted_insertionSort _ l

theorem stableSort_perm (l : List ProcRow) : (stableSort cmpByCpu l).Perm l := by
  rw [stableSort_eq_insertionSort]
  exact List.perm_insertionSort _ l

/-- Stability: rows with any given `cpu_pct` value keep their pre-sort
relative order — filtering the sorted list down to one percentage value
gives the same list as filtering the input. -/
theorem stableSort_filter_eq (l : List ProcRow) (c : ℚ) :
    (stableSort cmpByCpu l).filter (fun row => row.cpu_pct = c)
      = l.filter (fun row => row.cpu_pct = c) := by
  rw [stableSort_eq_insertionSort]
  have hBfilter : ((l.filter (fun row => row.cpu_pct = c)).filter
      (fun row => row.cpu_pct = c)) = l.filter (fun row => row.cpu_pct = c) := by
    rw [List.filter_filter]
    simp
  have hBpair : (l.filter (fun row => row.cpu_pct = c)).Pairwise
      (fun a b : ProcRow => b.cpu_pct ≤ a.cpu_pct) := by
    apply List.pairwise_of_forall_mem_list
    intro a ha b hb
    have ha2 := List.of_mem_filter ha
    have hb2 := List.of_mem_filter hb
    simp only [decide_eq_true_eq] at ha2 hb2
    rw [ha2, hb2]
  have hBsub : List.Sublist (l.filter (fun row => row.cpu_pct = c))
      (List.insertionSort (fun a b : ProcRow => b.cpu_pct ≤ a.cpu_pct) l) :=
    List.sublist_insertionSort hBpair (List.filter_sublist l)
  have hBsubA : List.Sublist (l.filter (fun row => row.cpu_pct = c))
      ((List.insertionSort (fun a b : ProcRow => b.cpu_pct ≤ a.cpu_pct) l).filter
          (fun row => row.cpu_pct = c)) := by
    have hs := List.Sublist.filter (fun row => row.cpu_pct = c) hBsub
    rwa [hBfilter] at hs
  have hlen : ((List.insertionSort (fun a b : ProcRow => b.cpu_pct ≤ a.cpu_pct) l).filter
        (fun row => row.cpu_pct = c)).length
      = (l.filter (fun row => row.cpu_pct = c)).length :=
    (List.Perm.filter _ (List.perm_insertionSort _ l)).length_eq
  exact (List.Sublist.eq_of_length hBsubA hlen.symm).symm

/-- Claim C9: `top_by_cpu(prev, cur, limit)` returns the diffed rows
stable-sorted descending by `cpu_pct` and truncated to the first `limit`
rows, with `limit = 0` meaning unlimited; the sorted list is non-increasing
in `cpu_pct`, is a permutation of the diff output, and rows sharing a
`cpu_pct` value keep their pre-sort relative order. -/
theorem claim_C9_top_by_cpu (prev cur : ProcSnapshot) (limit : Nat) :
    (top_by_cpu prev cur limit
        = if limit = 0 then stableSort cmpByCpu (compute_proc_rows prev cur)
          else (stableSort cmpByCpu (compute_proc_rows prev cur)).take limit) ∧
      (stableSort cmpByCpu (compute_proc_rows prev cur)).Pairwise
        (fun a b : ProcRow => b.cpu_pct ≤ a.cpu_pct) ∧
      (stableSort cmpByCpu (compute_proc_rows prev cur)).Perm
        (compute_proc_rows prev cur) ∧
      ∀ c : ℚ, (stableSort cmpByCpu (compute_proc_rows prev cur)).filter
            (fun row => row.cpu_pct = c)
          = (compute_proc_rows prev cur).filter (fun row => row.cpu_pct = c) := by
  refine ⟨?_, stableSort_sorted _, stableSort_perm _, fun c => stableSort_filter_eq _ c⟩
  by_cases h0 : limit = 0
  · subst h0
    simp [top_by_cpu]
  · rw [if_neg h0]
    simp only [top_by_cpu]
    by_cases hlen : limit < (stableSort cmpByCpu (compute_proc_rows prev cur)).length
    · rw [if_pos ⟨h0, hlen⟩]
    · rw [if_neg (fun hc => hlen hc.2), List.take_of_length_le (by omega)]

/-- A process-table entry used by the C9 witness. -/
def procW (pid : Int) (ut : Nat) (nm : String) : Int × ProcSample :=
  (pid, { pid := pid, ppid := 0, utime_ticks := ut, stime_ticks := 0,
          starttime_ticks := 0, rss_kb := 0, ctx_switches := 0, threads := 1,
          priority := 0, nice := 0, uid := 0, state := 'R', comm := nm, cmdline := nm })

/-- Previous snapshot for the C9 witness: four PIDs, all at zero CPU ticks,
system jiffies 0, HZ 100. -/
def prevSnapW : ProcSnapshot :=
  ⟨0, [procW 1 0 "a", procW 2 0 "b", procW 3 0 "c", procW 4 0 "d"], 0, 100⟩

/-- Current snapshot for the C9 witness: the same PIDs with CPU tick deltas
5, 90, 90, 1 across a 100-jiffy interval, yielding `cpu_pct` values
`[5, 90, 90, 1]`. -/
def curSnapW : ProcSnapshot :=
  ⟨100, [procW 1 5 "a", procW 2 90 "b", procW 3 90 "c", procW 4 1 "d"], 0, 100⟩

/-- Witness for C9 at the claim's example: `cpu_pct` values `[5, 90, 90, 1]`
and `limit = 2` return the two 90-percent rows (PIDs 2 then 3) in their
original relative order. -/
theorem claim_C9_top_by_cpu_witness :
    (top_by_cpu prevSnapW curSnapW 2).map (fun r => (r.pid, r.cpu_pct))
        = [((2 : Int), (90 : ℚ)), ((3 : Int), (90 : ℚ))] ∧
      (top_by_cpu prevSnapW curSnapW 2
          = if (2 : Nat) = 0 then stableSort cmpByCpu (compute_proc_rows prevSnapW curSnapW)
            else (stableSort cmpByCpu (compute_proc_rows prevSnapW curSnapW)).take 2) ∧
      (stableSort cmpByCpu (compute_proc_rows prevSnapW curSnapW)).Pairwise
        (fun a b : ProcRow => b.cpu_pct ≤ a.cpu_pct) ∧
      (stableSort cmpByCpu (compute_proc_rows prevSnapW curSnapW)).Perm
        (compute_proc_rows prevSnapW curSnapW) ∧
      ∀ c : ℚ, (stableSort cmpByCpu (compute_proc_rows prevSnapW curSnapW)).filter
            (fun row => row.cpu_pct = c)
          = (compute_proc_rows prevSnapW curSnapW).filter (fun row => row.cpu_pct = c) :=
  ⟨by norm_num [top_by_cpu, compute_proc_rows, prevSnapW, curSnapW, procW, lookupPid,
      deltaClamped, stableSort, stableInsert, cmpByCpu, username_from_uid],
    claim_C9_top_by_cpu prevSnapW curSnapW 2⟩
